import Mathlib

/-!
A verification development for the gosnapper repository: a shallow
embedding of the core pure logic of `gosnapper.go` — the tarsnap
listing parser (`GetFiles`), the empty-directory reconciler
(`EmptyDirs`), the extraction-target collector (`FilesToExtract`), the
load-balanced partitioner (`FileGroups`), and the stderr
classification performed by `Run` — together with theorems checking
the specification's statements about them.

Modelling conventions:
* Go `time.Time` values are modelled at minute granularity by
  `DateTime`; the dates produced by the listing parser carry no
  seconds, so every comparison the code performs against `time.Now()`
  agrees with a comparison against the minute-truncated "now" that the
  model passes around explicitly.
* Go maps are modelled as association lists with no duplicate keys;
  iteration order, which Go leaves unspecified, becomes an explicit
  list order (theorems either hold for every order or are stated about
  order-independent facts such as membership).
* Subprocess effects are modelled by passing the would-be stream
  contents (stdout lines of the listing, stderr lines of each worker)
  as explicit inputs; a startup failure is an explicit alternative of
  `ListingStartup`.
* Go panics are modelled by `Option` (`none` = panic), machine
  integers by `Int` with explicit range checks where the source checks
  them (`strconv.ParseInt`).
-/

namespace Gosnapper

/-- Timestamp at minute granularity, standing for Go `time.Time`.
The listing parser only ever constructs timestamps with zero seconds,
so comparing against a minute-truncated "now" is exact. -/
structure DateTime where
  year : Int
  month : Nat
  day : Nat
  hour : Nat
  minute : Nat
deriving DecidableEq, Repr

/-- Go `time.Time.After`: strict chronological (lexicographic) order. -/
def DateTime.after (d e : DateTime) : Bool :=
  if d.year ≠ e.year then decide (e.year < d.year)
  else if d.month ≠ e.month then decide (e.month < d.month)
  else if d.day ≠ e.day then decide (e.day < d.day)
  else if d.hour ≠ e.hour then decide (e.hour < d.hour)
  else decide (e.minute < d.minute)

/-- Gregorian leap-year rule, as used by Go's `time` package. -/
def isLeapYear (y : Int) : Bool :=
  y % 4 == 0 && (y % 100 != 0 || y % 400 == 0)

/-- Days in a month, as used by Go's `time` package for date validation. -/
def daysInMonth (y : Int) (m : Nat) : Nat :=
  if m == 2 then (if isLeapYear y then 29 else 28)
  else if m == 4 || m == 6 || m == 9 || m == 11 then 30
  else 31

/-- Go `Time.AddDate(-1, 0, 0)` on a parsed (hence valid) date: the
year is decremented; the only possible normalization is Feb 29 of a
leap year rolling over to Mar 1 of the preceding non-leap year. -/
def DateTime.addDateMinusOneYear (d : DateTime) : DateTime :=
  if daysInMonth (d.year - 1) d.month < d.day then
    ⟨d.year - 1, d.month + 1, d.day - daysInMonth (d.year - 1) d.month, d.hour, d.minute⟩
  else
    ⟨d.year - 1, d.month, d.day, d.hour, d.minute⟩

/-- Go `unicode.IsSpace` (the White_Space property). -/
def isGoSpace (c : Char) : Bool :=
  c == ' ' || c == '\t' || c == '\n' || c == '\r' || c.val == 11 || c.val == 12 ||
  c.val == 133 || c.val == 160 || c.val == 0x1680 ||
  (decide (0x2000 ≤ c.val) && decide (c.val ≤ 0x200A)) ||
  c.val == 0x2028 || c.val == 0x2029 || c.val == 0x202F || c.val == 0x205F || c.val == 0x3000

/-- Accumulator pass splitting a character list at runs of whitespace. -/
def fieldsAux : List Char → List Char → List (List Char)
  | [], acc => if acc.isEmpty then [] else [acc.reverse]
  | c :: cs, acc =>
    if isGoSpace c then
      if acc.isEmpty then fieldsAux cs [] else acc.reverse :: fieldsAux cs []
    else fieldsAux cs (c :: acc)

/-- Go `strings.Fields`. -/
def goFields (s : String) : List String :=
  (fieldsAux s.data []).map String.mk

/-- Numeric value of a decimal digit character. -/
def digitVal (c : Char) : Option Nat :=
  if '0' ≤ c ∧ c ≤ '9' then some (c.toNat - '0'.toNat) else none

/-- Accumulating decimal parse; fails on any non-digit. -/
def parseDigitsAux : List Char → Nat → Option Nat
  | [], n => some n
  | c :: cs, n =>
    match digitVal c with
    | some d => parseDigitsAux cs (n * 10 + d)
    | none => none

/-- Parse a non-empty all-digit character list in base 10. -/
def parseDigits (cs : List Char) : Option Nat :=
  match cs with
  | [] => none
  | _ => parseDigitsAux cs 0

/-- Go `strconv.ParseInt(s, 10, 64)`: optional single sign, then one
or more decimal digits, with the int64 range check (out of range is an
error, modelled as `none`). -/
def parseInt64 (s : String) : Option Int :=
  match s.data with
  | [] => none
  | c :: rest =>
    if c == '+' then
      (parseDigits rest).bind fun n => if n ≤ 2 ^ 63 - 1 then some (n : Int) else none
    else if c == '-' then
      (parseDigits rest).bind fun n => if n ≤ 2 ^ 63 then some (-(n : Int)) else none
    else
      (parseDigits (c :: rest)).bind fun n => if n ≤ 2 ^ 63 - 1 then some (n : Int) else none

/-- The short month names of Go's `time` package reference layout. -/
def monthNamesGo : List (List Char) :=
  ["Jan".data, "Feb".data, "Mar".data, "Apr".data, "May".data, "Jun".data,
   "Jul".data, "Aug".data, "Sep".data, "Oct".data, "Nov".data, "Dec".data]

/-- ASCII lower-casing, as Go's `time` layout matching applies. -/
def lowerAscii (c : Char) : Char :=
  if 'A' ≤ c ∧ c ≤ 'Z' then Char.ofNat (c.toNat + 32) else c

/-- Case-insensitive comparison of equal-length character lists. -/
def matchCaseInsensitive : List Char → List Char → Bool
  | [], [] => true
  | a :: as, b :: bs => lowerAscii a == lowerAscii b && matchCaseInsensitive as bs
  | _, _ => false

/-- Consume a three-letter month name (Go layout element `Jan`),
returning the month number (1-12) and the remaining characters. -/
def parseMonth (cs : List Char) : Option (Nat × List Char) :=
  match monthNamesGo.findIdx? (fun nm => matchCaseInsensitive (cs.take 3) nm) with
  | some i => some (i + 1, cs.drop 3)
  | none => none

/-- Consume one or two decimal digits (Go layout elements `2`, `15`). -/
def parseNum1or2 : List Char → Option (Nat × List Char)
  | [] => none
  | c :: rest =>
    match digitVal c with
    | none => none
    | some d =>
      match rest with
      | c2 :: rest2 =>
        match digitVal c2 with
        | some d2 => some (d * 10 + d2, rest2)
        | none => some (d, rest)
      | [] => some (d, [])

/-- Consume exactly two decimal digits (Go layout element `04`). -/
def parseNum2Fixed : List Char → Option (Nat × List Char)
  | c1 :: c2 :: rest =>
    match digitVal c1, digitVal c2 with
    | some d1, some d2 => some (d1 * 10 + d2, rest)
    | _, _ => none
  | _ => none

/-- Consume exactly four decimal digits (Go layout element `2006`). -/
def parseNum4 : List Char → Option (Nat × List Char)
  | c1 :: c2 :: c3 :: c4 :: rest =>
    match digitVal c1, digitVal c2, digitVal c3, digitVal c4 with
    | some d1, some d2, some d3, some d4 =>
      some (((d1 * 10 + d2) * 10 + d3) * 10 + d4, rest)
    | _, _, _, _ => none
  | _ => none

/-- Consume one expected literal character. -/
def expectChar (c : Char) : List Char → Option (List Char)
  | [] => none
  | c2 :: rest => if c2 == c then some rest else none

/-- Consume the common `Jan 2 2006` part of both layouts used by
`GetFiles` (gosnapper.go:138-140). -/
def parseMonthDayYear (cs : List Char) : Option ((Nat × Nat × Int) × List Char) :=
  match parseMonth cs with
  | none => none
  | some (m, r1) =>
    match expectChar ' ' r1 with
    | none => none
    | some r2 =>
      match parseNum1or2 r2 with
      | none => none
      | some (d, r3) =>
        match expectChar ' ' r3 with
        | none => none
        | some r4 =>
          match parseNum4 r4 with
          | none => none
          | some (y, r5) => some ((m, d, (y : Int)), r5)

/-- Go `time.Parse("Jan 2 2006", s)`: the whole input must be
consumed, and the day must be valid for the month and year. -/
def goParseMonthDayYear (s : String) : Option DateTime :=
  match parseMonthDayYear s.data with
  | some ((m, d, y), []) =>
    if 1 ≤ d ∧ d ≤ daysInMonth y m then some ⟨y, m, d, 0, 0⟩ else none
  | _ => none

/-- Go `time.Parse("Jan 2 2006 15:04", s)`: as above, with an hour
(one or two digits, below 24) and a two-digit minute below 60. -/
def goParseMonthDayYearTime (s : String) : Option DateTime :=
  match parseMonthDayYear s.data with
  | none => none
  | some ((m, d, y), r5) =>
    match expectChar ' ' r5 with
    | none => none
    | some r6 =>
      match parseNum1or2 r6 with
      | none => none
      | some (hh, r7) =>
        if 24 ≤ hh then none
        else
          match expectChar ':' r7 with
          | none => none
          | some r8 =>
            match parseNum2Fixed r8 with
            | none => none
            | some (mm, r9) =>
              if 60 ≤ mm then none
              else
                match r9 with
                | [] => if 1 ≤ d ∧ d ≤ daysInMonth y m then some ⟨y, m, d, hh, mm⟩ else none
                | _ => none

/-- Go `strings.Join`, also standing in for the `Sprintf` calls of
`GetFiles` that interpose single spaces. -/
def joinWith (sep : String) : List String → String
  | [] => ""
  | [x] => x
  | x :: y :: xs => x ++ sep ++ joinWith sep (y :: xs)

/-- `FileInfo` (gosnapper.go:45-48). -/
structure FileInfo where
  Size : Int
  Date : DateTime
deriving DecidableEq, Repr

/-- The date string built by `GetFiles` (gosnapper.go:129-136): when
the 8th field contains a colon it is a time of day and the current
year is interposed, otherwise the field is the year itself. -/
def lineDateStr (now : DateTime) (entry : String) : String :=
  let fields := goFields entry
  let month := fields.getD 5 ""
  let day := fields.getD 6 ""
  let yearOrTime := fields.getD 7 ""
  if yearOrTime.data.contains ':' then
    month ++ " " ++ day ++ " " ++ toString now.year ++ " " ++ yearOrTime
  else
    month ++ " " ++ day ++ " " ++ yearOrTime

/-- The date computed by `GetFiles` (gosnapper.go:138-144) before the
future-correction: the time-of-day layout is tried first, then the
year layout. -/
def lineRawDate (now : DateTime) (entry : String) : Option DateTime :=
  match goParseMonthDayYearTime (lineDateStr now entry) with
  | some d => some d
  | none => goParseMonthDayYear (lineDateStr now entry)

/-- One iteration of the scanner loop of `GetFiles`
(gosnapper.go:111-155): `none` means the line is skipped; otherwise
the produced inventory entry, with the future-correction of
gosnapper.go:146-149 applied to the date. -/
def parseLine (now : DateTime) (entry : String) : Option (String × FileInfo) :=
  if (goFields entry).length < 9 then none
  else
    match parseInt64 ((goFields entry).getD 4 "") with
    | none => none
    | some size =>
      match lineRawDate now entry with
      | none => none
      | some date =>
        some (joinWith " " ((goFields entry).drop 8),
          ⟨size, if date.after now then date.addDateMinusOneYear else date⟩)

/-- Go map update `rs.files[name] = info`, on the association-list
model of the map. -/
def insertEntry (inv : List (String × FileInfo)) (name : String) (info : FileInfo) :
    List (String × FileInfo) :=
  (inv.filter fun e => e.1 != name) ++ [(name, info)]

/-- The inventory built by the scanner loop of `GetFiles` from the
listing's stdout lines. -/
def parsedInventory (now : DateTime) (lines : List String) : List (String × FileInfo) :=
  lines.foldl
    (fun inv line =>
      match parseLine now line with
      | some ni => insertEntry inv ni.1 ni.2
      | none => inv)
    []

/-- Outcome of starting the listing subprocess in `GetFiles`
(gosnapper.go:97-106): either it runs and produces stdout lines, or
one of the two startup steps fails. -/
inductive ListingStartup where
  | ok (lines : List String)
  | pipeFailed
  | startFailed
deriving DecidableEq

/-- `GetFiles` (gosnapper.go:84-166): on a startup failure the method
returns `nil` (modelled `none`); otherwise the parsed inventory. -/
def getFilesRun (now : DateTime) : ListingStartup → Option (List (String × FileInfo))
  | .ok lines => some (parsedInventory now lines)
  | .pipeFailed => none
  | .startFailed => none

/-- Go `strings.HasSuffix` on character lists. -/
def listEndsWith (l suffix : List Char) : Bool :=
  decide (suffix.length ≤ l.length ∧ l.drop (l.length - suffix.length) = suffix)

/-- Go `strings.HasSuffix`. -/
def strEndsWith (s suffix : String) : Bool := listEndsWith s.data suffix.data

/-- Go `strings.TrimSuffix`. -/
def trimSuffix (s suffix : String) : String :=
  if strEndsWith s suffix then String.mk (s.data.take (s.data.length - suffix.data.length))
  else s

/-- A name denotes a directory entry when it ends in `/`
(gosnapper.go:207). -/
def isDirName (s : String) : Bool := strEndsWith s "/"

/-- Accumulator pass for `strings.Split(s, "/")`. -/
def splitSlashAux : List Char → List Char → List (List Char)
  | [], acc => [acc.reverse]
  | c :: cs, acc =>
    if c == '/' then acc.reverse :: splitSlashAux cs [] else splitSlashAux cs (c :: acc)

/-- Go `strings.Split(s, "/")`. -/
def splitSlash (s : String) : List String := (splitSlashAux s.data []).map String.mk

/-- The element-stack pass of lexical path cleaning: skip empty and
`.` elements, let `..` pop a previous element (or survive at the root
of a relative path, or vanish at the root of an absolute path). -/
def cleanElems (rooted : Bool) : List (List Char) → List (List Char) → List (List Char)
  | [], stack => stack
  | e :: es, stack =>
    if e = [] ∨ e = ['.'] then cleanElems rooted es stack
    else if e = ['.', '.'] then
      match stack with
      | [] => if rooted then cleanElems rooted es [] else cleanElems rooted es [e]
      | top :: rest =>
        if top = ['.', '.'] then cleanElems rooted es (e :: top :: rest)
        else cleanElems rooted es rest
    else cleanElems rooted es (e :: stack)

/-- Go `path/filepath.Clean` for slash-separated paths. -/
def goClean (s : String) : String :=
  if s.data = [] then "."
  else
    let rooted := decide (s.data.head? = some '/')
    let stack := (cleanElems rooted (splitSlashAux s.data []) []).reverse
    let out := (if rooted then "/" else "") ++ joinWith "/" (stack.map String.mk)
    if out = "" then "." else out

/-- Position of the last `/` in a character list, if any. -/
def lastSlashIdxAux : List Char → Nat → Option Nat → Option Nat
  | [], _, acc => acc
  | c :: cs, i, acc => lastSlashIdxAux cs (i + 1) (if c == '/' then some i else acc)

/-- Go `path/filepath.Dir`: everything up to and including the last
separator, cleaned (`Clean("")` is `"."`). -/
def goDir (path : String) : String :=
  match lastSlashIdxAux path.data 0 none with
  | some i => goClean (String.mk (path.data.take (i + 1)))
  | none => goClean ""

/-- The per-directory deletions of the second loop of `EmptyDirs`
(gosnapper.go:181-189): every strict component-prefix of the
directory, re-joined and suffixed with `/` — its proper ancestors. -/
def properPrefixDirs (dir : String) : List String :=
  let components := splitSlash (trimSuffix dir "/")
  (List.range components.length).filterMap fun i =>
    if i < components.length - 1 then some (joinWith "/" (components.take (i + 1)) ++ "/")
    else none

/-- `EmptyDirs` (gosnapper.go:169-197). The Go function materialises
the directory set as a map and returns the surviving keys in map
order; the model returns the same set, enumerated in first-occurrence
input order. -/
def emptyDirs (files dirs : List String) : List String :=
  dirs.dedup.filter fun d =>
    (files.all fun f => d != goDir f ++ "/") &&
    (dirs.all fun d2 => !((properPrefixDirs d2).contains d))

/-- The zero `time.Time` (year 1, Jan 1, midnight), as left by
`FileInfo{Size: 0}` in gosnapper.go:222. -/
def zeroDateTime : DateTime := ⟨1, 1, 1, 0, 0⟩

/-- The non-directory entries of the inventory (gosnapper.go:206-212,
else branch). -/
def filesPart (inv : List (String × FileInfo)) : List (String × FileInfo) :=
  inv.filter fun e => !(isDirName e.1)

/-- The directory-entry names of the inventory (gosnapper.go:206-212,
then branch). -/
def dirsPart (inv : List (String × FileInfo)) : List String :=
  (inv.map Prod.fst).filter isDirName

/-- `FilesToExtract` (gosnapper.go:200-226): the non-directory entries
plus every reconciled empty directory with size 0. -/
def filesToExtract (inv : List (String × FileInfo)) : List (String × FileInfo) :=
  filesPart inv ++
    (emptyDirs ((filesPart inv).map Prod.fst) (dirsPart inv)).map fun d => (d, ⟨0, zeroDateTime⟩)

/-- `Group` (gosnapper.go:33-36). -/
structure Group where
  Files : List String
  Size : Int
deriving DecidableEq, Repr

/-- `Group.Add` (gosnapper.go:39-42). -/
def Group.add (g : Group) (name : String) (size : Int) : Group :=
  ⟨g.Files ++ [name], g.Size + size⟩

/-- Go map lookup on the association-list model. -/
def lookupName (name : String) : List (String × FileInfo) → Option FileInfo
  | [] => none
  | e :: es => if e.1 = name then some e.2 else lookupName name es

/-- The effective weight of a target (gosnapper.go:255-265): its size,
or 0 when a previous snapshot holds an entry of the same name with
identical size and identical date. -/
def effectiveSize (previous : Option (List (String × FileInfo))) (name : String)
    (info : FileInfo) : Int :=
  match previous with
  | none => info.Size
  | some prev =>
    match lookupName name prev with
    | some prevInfo =>
      if prevInfo.Size = info.Size ∧ prevInfo.Date = info.Date then 0 else info.Size
    | none => info.Size

/-- The scan state of the smallest-group loop: remaining groups,
current best index, current best size, index of the next group. -/
def smallestIdxAux : List Group → Nat → Int → Nat → Nat
  | [], best, _, _ => best
  | g :: gs, best, bestSize, i =>
    if g.Size < bestSize then smallestIdxAux gs i g.Size (i + 1)
    else smallestIdxAux gs best bestSize (i + 1)

/-- The smallest-group scan of `FileGroups` (gosnapper.go:267-273):
start from group 0 and replace the candidate only on strictly smaller
size, so the first group of minimal size wins. -/
def smallestIdx : List Group → Nat
  | [] => 0
  | g :: gs => smallestIdxAux gs 0 g.Size 1

/-- Size of the group at an index (0 outside the slice), used to state
properties of the smallest-group scan. -/
def groupSizeAt (gs : List Group) (i : Nat) : Int := (gs.getD i ⟨[], 0⟩).Size

/-- In-place update of the chosen group in the group slice. -/
def updateAt : Nat → (Group → Group) → List Group → List Group
  | _, _, [] => []
  | 0, f, g :: gs => f g :: gs
  | i + 1, f, g :: gs => g :: updateAt i f gs

/-- One iteration of the distribution loop of `FileGroups`
(gosnapper.go:255-276): add the entry, at its effective weight, to the
first group of smallest accumulated size. -/
def assign (previous : Option (List (String × FileInfo))) (gs : List Group)
    (e : String × FileInfo) : List Group :=
  updateAt (smallestIdx gs) (fun g => g.add e.1 (effectiveSize previous e.1 e.2)) gs

/-- The whole distribution loop of `FileGroups`. -/
def distribute (previous : Option (List (String × FileInfo))) (gs : List Group)
    (entries : List (String × FileInfo)) : List Group :=
  entries.foldl (assign previous) gs

/-- The descending-size order of gosnapper.go:250-252. -/
def bySizeDesc (a b : String × FileInfo) : Prop := b.2.Size ≤ a.2.Size

instance : DecidableRel bySizeDesc :=
  fun a b => inferInstanceAs (Decidable (b.2.Size ≤ a.2.Size))

instance : IsTotal (String × FileInfo) bySizeDesc :=
  ⟨fun a b => le_total b.2.Size a.2.Size⟩

instance : IsTrans (String × FileInfo) bySizeDesc :=
  ⟨fun _ _ _ h1 h2 => le_trans h2 h1⟩

/-- The descending-size sort of gosnapper.go:250-252. `sort.Slice` is
an unstable sort over an unspecified map-iteration order, so any
permutation sorted by descending size is a faithful model; the model
fixes insertion sort on the inventory's list order. -/
def sortBySizeDesc (l : List (String × FileInfo)) : List (String × FileInfo) :=
  List.insertionSort bySizeDesc l

/-- `FileGroups` (gosnapper.go:229-287) up to the final projection:
the `tpsize` groups with their accumulated files and sizes. -/
def fileGroupsG (inv : List (String × FileInfo))
    (previous : Option (List (String × FileInfo))) (K : Nat) : List Group :=
  distribute previous (List.replicate K ⟨[], 0⟩) (sortBySizeDesc (filesToExtract inv))

/-- `FileGroups` (gosnapper.go:229-287): the file lists of the
non-empty groups. -/
def FileGroups (inv : List (String × FileInfo))
    (previous : Option (List (String × FileInfo))) (K : Nat) : List (List String) :=
  ((fileGroupsG inv previous K).filter fun g => decide (0 < g.Files.length)).map Group.Files

/-- The effective weight a member name contributes to its group,
looked up in the target list. -/
def memberW (targets : List (String × FileInfo))
    (previous : Option (List (String × FileInfo))) (n : String) : Int :=
  match lookupName n targets with
  | some info => effectiveSize previous n info
  | none => 0

/-- All files of a group list, in order. -/
def joinFiles (gs : List Group) : List String := (gs.map Group.Files).flatten

/-- `ThreadPoolDefaultSize` (gosnapper.go:21). -/
def ThreadPoolDefaultSize : Int := 10

/-- `Options` (gosnapper.go:61-66). -/
structure OptionsModel where
  Directory : String
  ThreadPoolSize : Int
  TarsnapOptions : List String
  Previous : Option (List (String × FileInfo))

/-- The thread-pool size selected by `NewGoSnapper`
(gosnapper.go:69-81): the default replaces an exact 0 only. -/
def newGoSnapperTpsize (options : OptionsModel) : Int :=
  if options.ThreadPoolSize = 0 then ThreadPoolDefaultSize else options.ThreadPoolSize

/-- `FileGroups` with the Go panics made explicit: `make([]*Group, n)`
panics for negative `n` (gosnapper.go:230), and `groups[0]` panics on
an empty slice once any entry must be assigned (gosnapper.go:268). -/
def fileGroupsChecked (tpsize : Int) (inv : List (String × FileInfo))
    (previous : Option (List (String × FileInfo))) : Option (List (List String)) :=
  if tpsize < 0 then none
  else if tpsize = 0 ∧ filesToExtract inv ≠ [] then none
  else some (FileGroups inv previous tpsize.toNat)

/-- `ExitError` (gosnapper.go:24). -/
def ExitError : String := "tarsnap: Error exit delayed from previous errors.\n"

/-- `NotOlderError` (gosnapper.go:25). -/
def NotOlderError : String := "File on disk is not older; skipping.\n"

/-- `AlreadyExists` (gosnapper.go:26). -/
def AlreadyExists : String := ": Already exists\n"

/-- The suppression test of gosnapper.go:343: the scanner text plus
newline ends with one of the two benign templates. -/
def suppressedLine (text : String) : Bool :=
  strEndsWith (text ++ "\n") NotOlderError || strEndsWith (text ++ "\n") AlreadyExists

/-- The delayed-error test of gosnapper.go:346: the scanner text plus
newline equals `ExitError` exactly. -/
def exitLine (text : String) : Bool := (text ++ "\n") == ExitError

/-- The per-worker state of the stderr loop: lines forwarded so far
and the shared error flag (gosnapper.go:56). -/
structure StderrState where
  forwarded : List String
  errorOccured : Bool
deriving DecidableEq

/-- One iteration of the stderr loop of `Run` (gosnapper.go:341-353):
benign lines are dropped, the exact delayed-error line sets the flag
and is dropped, anything else is forwarded minus its trailing
newline. -/
def processStderrLine (st : StderrState) (text : String) : StderrState :=
  if suppressedLine text then st
  else if exitLine text then { st with errorOccured := true }
  else { st with forwarded := st.forwarded ++ [trimSuffix (text ++ "\n") "\n"] }

/-- A whole worker's stderr stream through the loop of
gosnapper.go:341-353. -/
def processStderr (lines : List String) : StderrState :=
  lines.foldl processStderrLine ⟨[], false⟩

/-- A line survives the classification when it matches none of the
three templates. -/
def keepLine (text : String) : Bool := !(suppressedLine text || exitLine text)

/-- All lines forwarded by all workers (gosnapper.go:350-352); the
real interleaving is an arbitrary serialisation, modelled here in
worker order. -/
def runWorkersOutput (workers : List (List String)) : List String :=
  (workers.map fun w => (processStderr w).forwarded).flatten

/-- The shared `errorOccured` flag after all workers finish: each
worker only ever sets it to true (gosnapper.go:347). -/
def runErrorFlag (workers : List (List String)) : Bool :=
  workers.any fun w => (processStderr w).errorOccured

/-- The forwarded diagnostics of the whole run, with the single final
re-emission of `ExitError` when the flag was set
(gosnapper.go:368-372). -/
def runFinalOutput (workers : List (List String)) : List String :=
  runWorkersOutput workers ++ (if runErrorFlag workers then [ExitError] else [])

/-- The worker-creation diagnostic of gosnapper.go:295. -/
def creatingMsg (n : Nat) : String :=
  "Creating " ++ toString n ++ " worker threads for file extraction"

/-- What `Run` has done by the time the workers are launched. -/
structure RunStart where
  diagnostics : List String
  workersLaunched : Nat
deriving DecidableEq

/-- `Run` up to the launching of the workers (gosnapper.go:290-298):
`FileGroups` is invoked unconditionally — a `nil` inventory from a
failed listing simply behaves as an empty map — the worker-creation
diagnostic is printed, and one goroutine per group is started. -/
def runStartModel (now : DateTime) (s : ListingStartup)
    (previous : Option (List (String × FileInfo))) (K : Nat) : RunStart :=
  let startMsgs : List String :=
    match s with
    | .pipeFailed => ["Error creating stdout pipe"]
    | .startFailed => ["Error starting tarsnap"]
    | .ok lines =>
      ["File scanning complete: " ++ toString (parsedInventory now lines).length ++
        " files found in archive"]
  let inv := (getFilesRun now s).getD []
  let groups := FileGroups inv previous K
  ⟨startMsgs ++ [creatingMsg groups.length], groups.length⟩

/-- A fixed timestamp used by concrete instances. -/
def dt0 : DateTime := ⟨2024, 5, 1, 0, 0⟩

/-- A fixed "now" used by concrete instances. -/
def now0 : DateTime := ⟨2025, 6, 15, 12, 0⟩

/-- The four-file inventory of the end-to-end partitioning instance. -/
def inv4 : List (String × FileInfo) :=
  [("a", ⟨100, dt0⟩), ("b", ⟨10, dt0⟩), ("c", ⟨10, dt0⟩), ("d", ⟨10, dt0⟩)]

/-- A previous snapshot marking the 100-byte file unchanged. -/
def prevD : List (String × FileInfo) := [("a", ⟨100, dt0⟩)]

/-- A one-file inventory. -/
def inv1 : List (String × FileInfo) := [("f", ⟨3, dt0⟩)]

/-- Two workers' stderr streams for a concrete orchestration run. -/
def workers0 : List (List String) :=
  [["boom", "tarsnap: Error exit delayed from previous errors."], ["x: Already exists"]]

/-- A listing line whose time-of-day date lands in the future of `now0`. -/
def lineC6 : String := "m 1 u g 100 Dec 31 23:50 f"

/-- Inversion principle for `parseLine`: what a produced inventory
entry must look like. -/
theorem parseLine_eq_some_iff (now : DateTime) (entry : String) (name : String)
    (info : FileInfo) :
    parseLine now entry = some (name, info) ↔
      ¬ (goFields entry).length < 9 ∧
        ∃ size date, parseInt64 ((goFields entry).getD 4 "") = some size ∧
          lineRawDate now entry = some date ∧
          name = joinWith " " ((goFields entry).drop 8) ∧
          info = ⟨size, if date.after now then date.addDateMinusOneYear else date⟩ := by
  unfold parseLine
  constructor
  · intro h
    split at h
    · exact absurd h (by simp)
    · next h9 =>
      refine ⟨h9, ?_⟩
      split at h
      · exact absurd h (by simp)
      · next size hs =>
        split at h
        · exact absurd h (by simp)
        · next date hd =>
          simp only [Option.some.injEq, Prod.mk.injEq] at h
          exact ⟨size, date, hs, hd, h.1.symm, h.2.symm⟩
  · rintro ⟨h9, size, date, hs, hd, hn, hi⟩
    rw [if_neg h9, hs, hd, hn, hi]

/-- A value parsed by `strconv.ParseInt` from a string not starting
with a minus sign is non-negative. -/
theorem parseInt64_nonneg (s : String) (v : Int) (h : parseInt64 s = some v)
    (hsign : s.data.head? ≠ some '-') : 0 ≤ v := by
  unfold parseInt64 at h
  cases hcs : s.data with
  | nil => rw [hcs] at h; exact absurd h (by simp)
  | cons c rest =>
    rw [hcs] at h
    simp only at h
    by_cases hp : c == '+'
    · rw [if_pos hp] at h
      cases hdig : parseDigits rest with
      | none => rw [hdig] at h; exact absurd h (by simp)
      | some n =>
        rw [hdig] at h
        simp only [Option.some_bind] at h
        split at h
        · simp only [Option.some.injEq] at h
          rw [← h]
          exact_mod_cast Nat.zero_le n
        · exact absurd h (by simp)
    · by_cases hm : c == '-'
      · exfalso
        apply hsign
        rw [hcs]
        have : c = '-' := by simpa using hm
        rw [this]
        rfl
      · rw [if_neg hp, if_neg hm] at h
        cases hdig : parseDigits (c :: rest) with
        | none => rw [hdig] at h; exact absurd h (by simp)
        | some n =>
          rw [hdig] at h
          simp only [Option.some_bind] at h
          split at h
          · simp only [Option.some.injEq] at h
            rw [← h]
            exact_mod_cast Nat.zero_le n
          · exact absurd h (by simp)

/-- Claim C5: a listing line with fewer than 9 whitespace-separated
fields, or a 5th field that is not a base-10 integer, or date fields
parsing under neither the time-of-day layout nor the year layout,
contributes no inventory entry; every produced entry has the parsed
5th field as its size and fields 9 onward, re-joined with single
spaces, as its name. -/
theorem claim_C5 (now : DateTime) (entry : String) :
    (((goFields entry).length < 9 ∨
        parseInt64 ((goFields entry).getD 4 "") = none ∨
        (goParseMonthDayYearTime (lineDateStr now entry) = none ∧
          goParseMonthDayYear (lineDateStr now entry) = none)) →
      parseLine now entry = none) ∧
    (∀ name info, parseLine now entry = some (name, info) →
      parseInt64 ((goFields entry).getD 4 "") = some info.Size ∧
      name = joinWith " " ((goFields entry).drop 8)) := by
  constructor
  · intro h
    rcases h with h | h | h
    · simp [parseLine, h]
    · by_cases h9 : (goFields entry).length < 9
      · simp [parseLine, h9]
      · unfold parseLine
        rw [if_neg h9, h]
    · have hraw : lineRawDate now entry = none := by
        simp [lineRawDate, h.1, h.2]
      by_cases h9 : (goFields entry).length < 9
      · simp [parseLine, h9]
      · cases hint : parseInt64 ((goFields entry).getD 4 "") with
        | none =>
          unfold parseLine
          rw [if_neg h9, hint]
        | some size =>
          unfold parseLine
          rw [if_neg h9, hint, hraw]
  · intro name info h
    rw [parseLine_eq_some_iff] at h
    obtain ⟨h9, size, date, hs, hd, hn, hi⟩ := h
    subst hi
    exact ⟨hs, hn⟩

/-- Witness for C5 at a malformed two-field line. -/
theorem claim_C5_witness : parseLine now0 "a b" = none :=
  (claim_C5 now0 "a b").1 (Or.inl (by decide))

/-- Claim C6: when the pre-correction date of a successfully parsed
line is strictly after "now", the stored date is shifted back exactly
one year (its year is the raw year minus one), and otherwise the raw
date is stored unchanged; the correction does not depend on which of
the two layouts parsed the line. -/
theorem claim_C6 (now : DateTime) (entry : String) (d : DateTime)
    (hd : lineRawDate now entry = some d) :
    ∀ name info, parseLine now entry = some (name, info) →
      info.Date = (if d.after now then d.addDateMinusOneYear else d) ∧
      (d.after now = true → info.Date = d.addDateMinusOneYear ∧ info.Date.year = d.year - 1) ∧
      (d.after now = false → info.Date = d) := by
  intro name info h
  rw [parseLine_eq_some_iff] at h
  obtain ⟨h9, size, date, hs, hd2, hn, hi⟩ := h
  rw [hd] at hd2
  injection hd2 with hdd
  subst hdd
  subst hi
  refine ⟨rfl, ?_, ?_⟩
  · intro hafter
    constructor
    · show (if d.after now = true then d.addDateMinusOneYear else d) = d.addDateMinusOneYear
      rw [if_pos hafter]
    · show (if d.after now = true then d.addDateMinusOneYear else d).year = d.year - 1
      rw [if_pos hafter]
      unfold DateTime.addDateMinusOneYear
      split <;> rfl
  · intro hafter
    show (if d.after now = true then d.addDateMinusOneYear else d) = d
    rw [if_neg (by simp [hafter])]

/-- Witness for C6: a December 31 23:50 line read in June 2025 parses
to Dec 31 2025, which is in the future, and is stored as Dec 31
2024. -/
theorem claim_C6_witness :
    (⟨100, ⟨2024, 12, 31, 23, 50⟩⟩ : FileInfo).Date =
      DateTime.addDateMinusOneYear ⟨2025, 12, 31, 23, 50⟩ :=
  ((claim_C6 now0 lineC6 ⟨2025, 12, 31, 23, 50⟩ (by decide) "f"
    ⟨100, ⟨2024, 12, 31, 23, 50⟩⟩ (by decide)).2.1 (by decide)).1

/-- Counterexample to C9 as stated: `strconv.ParseInt` accepts a
leading minus sign, so a listing line whose 5th field is `-5`
produces an inventory entry of negative size. -/
theorem claim_C9_counterexample :
    parseLine now0 "- 0 u g -5 Jan 2 2020 some name" =
      some ("some name", ⟨-5, ⟨2020, 1, 2, 0, 0⟩⟩) ∧ (-5 : Int) < 0 :=
  ⟨by decide, by decide⟩

/-- Claim C9 (amended): every entry stored by the parser has the
parsed 5th field as its size, and that size is non-negative whenever
the 5th field does not begin with a minus sign. -/
theorem claim_C9 (now : DateTime) (entry : String) (name : String) (info : FileInfo)
    (h : parseLine now entry = some (name, info))
    (hsign : ((goFields entry).getD 4 "").data.head? ≠ some '-') :
    0 ≤ info.Size := by
  rw [parseLine_eq_some_iff] at h
  obtain ⟨h9, size, date, hs, hd, hn, hi⟩ := h
  subst hi
  exact parseInt64_nonneg _ _ hs hsign

/-- Witness for C9 at a well-formed line with size field `7`. -/
theorem claim_C9_witness : (0 : Int) ≤ (FileInfo.mk 7 ⟨2020, 1, 2, 0, 0⟩).Size :=
  claim_C9 now0 "- 0 u g 7 Jan 2 2020 z" "z" ⟨7, ⟨2020, 1, 2, 0, 0⟩⟩ (by decide) (by decide)

/-- Claim C10: `NewGoSnapper` replaces the worker count by the default
10 only for an exact 0; a negative `ThreadPoolSize` is kept as-is and
makes `FileGroups` panic on the negative slice allocation (modelled by
`none`), while every non-negative `ThreadPoolSize` passed through
`NewGoSnapper` yields a panic-free `FileGroups`. -/
theorem claim_C10 :
    (∀ options : OptionsModel, options.ThreadPoolSize = 0 → newGoSnapperTpsize options = 10) ∧
    (∀ options : OptionsModel, options.ThreadPoolSize ≠ 0 →
      newGoSnapperTpsize options = options.ThreadPoolSize) ∧
    (∀ t : Int, t < 0 → ∀ inv previous, fileGroupsChecked t inv previous = none) ∧
    (∀ options : OptionsModel, 0 ≤ options.ThreadPoolSize →
      ∀ inv previous, (fileGroupsChecked (newGoSnapperTpsize options) inv previous).isSome = true) := by
  refine ⟨?_, ?_, ?_, ?_⟩
  · intro o h
    simp [newGoSnapperTpsize, h, ThreadPoolDefaultSize]
  · intro o h
    simp [newGoSnapperTpsize, h]
  · intro t ht inv previous
    simp [fileGroupsChecked, ht]
  · intro o h inv previous
    have h1 : (1 : Int) ≤ newGoSnapperTpsize o := by
      unfold newGoSnapperTpsize ThreadPoolDefaultSize
      split
      · norm_num
      · omega
    unfold fileGroupsChecked
    rw [if_neg (by omega), if_neg (fun hc => by omega)]
    rfl

/-- Witness for C10 at `ThreadPoolSize = 0` and `-3`. -/
theorem claim_C10_witness :
    newGoSnapperTpsize ⟨"", 0, [], none⟩ = 10 ∧
    fileGroupsChecked (-3) inv4 none = none ∧
    (fileGroupsChecked (newGoSnapperTpsize ⟨"", 0, [], none⟩) inv4 none).isSome = true :=
  ⟨claim_C10.1 ⟨"", 0, [], none⟩ rfl,
    claim_C10.2.2.1 (-3) (by decide) inv4 none,
    claim_C10.2.2.2 ⟨"", 0, [], none⟩ (by decide) inv4 none⟩

/-- On an empty inventory `FileGroups` returns no groups at all: every
one of the `K` groups stays empty and is filtered out. -/
theorem FileGroups_nil (previous : Option (List (String × FileInfo))) (K : Nat) :
    FileGroups [] previous K = [] := by
  unfold FileGroups fileGroupsG
  have h1 : sortBySizeDesc (filesToExtract []) = [] := rfl
  rw [h1]
  show ((List.replicate K ⟨[], 0⟩).filter fun g => decide (0 < g.Files.length)).map Group.Files = []
  rw [List.filter_eq_nil_iff.mpr]
  · rfl
  · intro g hg
    rw [List.eq_of_mem_replicate hg]
    decide

/-- Counterexample to C8 as stated: after a failed stdout-pipe
creation `GetFiles` indeed returns `nil`, but `Run` does not abort —
it still partitions the (empty) target set and prints the
post-partition worker-creation diagnostic, launching 0 workers. -/
theorem claim_C8_counterexample :
    getFilesRun now0 .pipeFailed = none ∧
    runStartModel now0 .pipeFailed none 10 =
      ⟨["Error creating stdout pipe", "Creating 0 worker threads for file extraction"], 0⟩ :=
  ⟨rfl, by decide⟩

/-- Claim C8 (amended): a listing startup failure yields a `nil`
inventory, and `Run` then proceeds — it partitions the empty target
set into zero groups, reports the creation of 0 worker threads, and
launches no extraction worker, completing without extracting
anything. -/
theorem claim_C8 (now : DateTime) (previous : Option (List (String × FileInfo))) (K : Nat) :
    getFilesRun now .pipeFailed = none ∧
    getFilesRun now .startFailed = none ∧
    FileGroups [] previous K = [] ∧
    (runStartModel now .pipeFailed previous K).workersLaunched = 0 ∧
    (runStartModel now .startFailed previous K).workersLaunched = 0 ∧
    (runStartModel now .pipeFailed previous K).diagnostics =
      ["Error creating stdout pipe", creatingMsg 0] ∧
    (runStartModel now .startFailed previous K).diagnostics =
      ["Error starting tarsnap", creatingMsg 0] := by
  refine ⟨rfl, rfl, FileGroups_nil previous K, ?_, ?_, ?_, ?_⟩ <;>
    simp [runStartModel, getFilesRun, FileGroups_nil]

/-- Claim C7: a directory survives `EmptyDirs` exactly when it is an
input directory that is neither the immediate parent of any input
file nor a proper (component-prefix) ancestor of any input directory;
in particular the `a/`, `a/b/`, `a/b/c.txt` instance leaves nothing
and the `x/`, `y/` instance leaves both. -/
theorem claim_C7 (files dirs : List String) (d : String) :
    (d ∈ emptyDirs files dirs ↔
      d ∈ dirs ∧ (∀ f ∈ files, d ≠ goDir f ++ "/") ∧
        ∀ d2 ∈ dirs, d ∉ properPrefixDirs d2) ∧
    emptyDirs ["a/b/c.txt"] ["a/", "a/b/"] = [] ∧
    emptyDirs [] ["x/", "y/"] = ["x/", "y/"] := by
  refine ⟨?_, by decide, by decide⟩
  unfold emptyDirs
  rw [List.mem_filter, List.mem_dedup]
  simp [List.all_eq_true]

/-- A scanner text with its newline re-appended and then trimmed is
the text itself. -/
theorem trimSuffix_newline (t : String) : trimSuffix (t ++ "\n") "\n" = t := by
  obtain ⟨td⟩ := t
  have h1 : (String.mk td ++ "\n").data = td ++ ['\n'] := rfl
  have hb : strEndsWith (String.mk td ++ "\n") "\n" = true := by
    unfold strEndsWith listEndsWith
    rw [h1]
    refine decide_eq_true ⟨by simp, ?_⟩
    have h2 : (td ++ ['\n']).length - ("\n".data).length = td.length := by simp
    rw [h2]
    exact List.drop_left td ['\n']
  unfold trimSuffix
  rw [if_pos hb]
  have h3 : (String.mk td ++ "\n").data.length - ("\n".data).length = td.length := by
    rw [h1]; simp
  rw [h3, h1]
  rw [List.take_left td ['\n']]

/-- The delayed-error line matches neither benign suffix template, so
the order of the two tests in the loop cannot mask the flag. -/
theorem exitLine_not_suppressed (t : String) (h : exitLine t = true) :
    suppressedLine t = false := by
  have h1 : t ++ "\n" = ExitError := by simpa [exitLine] using h
  have h2 : (t ++ "\n").data = ExitError.data := by rw [h1]
  unfold suppressedLine strEndsWith
  rw [h2]
  decide

/-- The stderr loop, from any starting state: it appends exactly the
kept lines (each stripped back to its scanner text) and ORs the flag
with the presence of the delayed-error line. -/
theorem processStderr_fold (lines : List String) :
    ∀ st : StderrState,
      (List.foldl processStderrLine st lines).forwarded = st.forwarded ++ lines.filter keepLine ∧
      (List.foldl processStderrLine st lines).errorOccured =
        (st.errorOccured || lines.any exitLine) := by
  induction lines with
  | nil => intro st; simp
  | cons t rest ih =>
    intro st
    simp only [List.foldl_cons, List.filter_cons, List.any_cons]
    by_cases hs : suppressedLine t
    · have hst : processStderrLine st t = st := by simp [processStderrLine, hs]
      have hk : keepLine t = false := by simp [keepLine, hs]
      have he : exitLine t = false := by
        by_contra hc
        have := exitLine_not_suppressed t (by simpa using hc)
        rw [hs] at this
        cases this
      rw [hst, hk, he]
      simpa using ih st
    · by_cases he : exitLine t
      · have hst : processStderrLine st t = { st with errorOccured := true } := by
          simp [processStderrLine, hs, he]
        have hk : keepLine t = false := by simp [keepLine, he]
        rw [hst, hk, he]
        obtain ⟨ihf, ihe⟩ := ih { st with errorOccured := true }
        refine ⟨by simpa using ihf, ?_⟩
        rw [ihe]
        simp
      · have hst : processStderrLine st t =
            { st with forwarded := st.forwarded ++ [trimSuffix (t ++ "\n") "\n"] } := by
          simp [processStderrLine, hs, he]
        have hk : keepLine t = true := by simp [keepLine, hs, he]
        rw [hst, hk]
        obtain ⟨ihf, ihe⟩ := ih { st with forwarded := st.forwarded ++ [trimSuffix (t ++ "\n") "\n"] }
        refine ⟨?_, ?_⟩
        · rw [ihf]
          simp [trimSuffix_newline]
        · rw [ihe]
          simp [he]

/-- Claim C2: per worker, the stderr loop forwards exactly the lines
matching none of the three templates (each with only its trailing
newline removed, i.e. the scanner text itself), the shared flag is set
exactly when some worker read the delayed-error line, and the final
output contains the delayed-error message exactly once when the flag
was set and never otherwise. -/
theorem claim_C2 (workers : List (List String))
    (hnl : ∀ w ∈ workers, ∀ t ∈ w, t.data.contains '\n' = false) :
    (∀ w ∈ workers,
      (processStderr w).forwarded = w.filter keepLine ∧
      (processStderr w).errorOccured = w.any exitLine ∧
      ∀ t ∈ w, trimSuffix (t ++ "\n") "\n" = t) ∧
    (runErrorFlag workers = true ↔ ∃ w ∈ workers, ∃ t ∈ w, exitLine t = true) ∧
    (runFinalOutput workers).count ExitError = (if runErrorFlag workers then 1 else 0) := by
  have hw : ∀ w : List String,
      (processStderr w).forwarded = w.filter keepLine ∧
      (processStderr w).errorOccured = w.any exitLine := by
    intro w
    have := processStderr_fold w ⟨[], false⟩
    simpa [processStderr] using this
  refine ⟨?_, ?_, ?_⟩
  · intro w _
    exact ⟨(hw w).1, (hw w).2, fun t _ => trimSuffix_newline t⟩
  · unfold runErrorFlag
    rw [List.any_eq_true]
    constructor
    · rintro ⟨w, hwm, hflag⟩
      refine ⟨w, hwm, ?_⟩
      rw [(hw w).2, List.any_eq_true] at hflag
      exact hflag
    · rintro ⟨w, hwm, t, htm, hext⟩
      refine ⟨w, hwm, ?_⟩
      rw [(hw w).2, List.any_eq_true]
      exact ⟨t, htm, hext⟩
  · unfold runFinalOutput
    rw [List.count_append]
    have hzero : (runWorkersOutput workers).count ExitError = 0 := by
      rw [List.count_eq_zero]
      intro hmem
      unfold runWorkersOutput at hmem
      rw [List.mem_flatten] at hmem
      obtain ⟨fw, hfw, hexm⟩ := hmem
      rw [List.mem_map] at hfw
      obtain ⟨w, hwm, hfweq⟩ := hfw
      rw [← hfweq, (hw w).1] at hexm
      have hmemw : ExitError ∈ w := List.mem_of_mem_filter hexm
      have := hnl w hwm ExitError hmemw
      exact absurd this (by decide)
    rw [hzero]
    by_cases hflag : runErrorFlag workers
    · rw [if_pos hflag, if_pos hflag]
      decide
    · rw [if_neg hflag, if_neg hflag]
      rfl

/-- Witness for C2 at a concrete pair of worker streams. -/
theorem claim_C2_witness :
    (runFinalOutput workers0).count ExitError = (if runErrorFlag workers0 then 1 else 0) :=
  (claim_C2 workers0 (by decide)).2.2

/-- Updating one group leaves the number of groups unchanged. -/
theorem updateAt_length (i : Nat) (f : Group → Group) :
    ∀ gs : List Group, (updateAt i f gs).length = gs.length := by
  induction i with
  | zero => intro gs; cases gs <;> rfl
  | succ n ih =>
    intro gs
    cases gs with
    | nil => rfl
    | cons g rest => simp [updateAt, ih rest]

/-- The scan's result stays below any bound covering both the running
best index and the indices still to be visited. -/
theorem smallestIdxAux_lt (n : Nat) (gs : List Group) :
    ∀ (b : Nat) (s : Int) (i : Nat), b < n → i + gs.length ≤ n →
      smallestIdxAux gs b s i < n := by
  induction gs with
  | nil =>
    intro b s i hb _
    simpa [smallestIdxAux] using hb
  | cons g rest ih =>
    intro b s i hb hlen
    simp only [List.length_cons] at hlen
    unfold smallestIdxAux
    split
    · exact ih i g.Size (i + 1) (by omega) (by omega)
    · exact ih b s (i + 1) hb (by omega)

/-- On a non-empty group slice the scan returns a valid index. -/
theorem smallestIdx_lt (gs : List Group) (h : gs ≠ []) : smallestIdx gs < gs.length := by
  cases gs with
  | nil => exact absurd rfl h
  | cons g rest =>
    show smallestIdxAux rest 0 g.Size 1 < (g :: rest).length
    simp only [List.length_cons]
    exact smallestIdxAux_lt (rest.length + 1) rest 0 g.Size 1 (by omega) (by omega)

/-- Adding a name to the group at a valid index inserts exactly that
name, up to permutation, into the combined file list. -/
theorem joinFiles_updateAt (nm : String) (w : Int) :
    ∀ (gs : List Group) (i : Nat), i < gs.length →
      (joinFiles (updateAt i (fun g => g.add nm w) gs)).Perm (nm :: joinFiles gs) := by
  intro gs
  induction gs with
  | nil => intro i h; simp at h
  | cons g rest ih =>
    intro i hi
    cases i with
    | zero =>
      show (joinFiles (g.add nm w :: rest)).Perm (nm :: joinFiles (g :: rest))
      unfold joinFiles Group.add
      simp only [List.map_cons, List.flatten_cons]
      rw [List.append_assoc]
      exact List.perm_middle
    | succ n =>
      have hn : n < rest.length := by simpa using hi
      show (joinFiles (g :: updateAt n (fun g => g.add nm w) rest)).Perm
        (nm :: joinFiles (g :: rest))
      have hcons : ∀ (g0 : Group) (l : List Group),
          joinFiles (g0 :: l) = g0.Files ++ joinFiles l := fun _ _ => rfl
      rw [hcons, hcons]
      exact ((ih n hn).append_left g.Files).trans List.perm_middle

/-- Adding a name at weight `W name` preserves the invariant that each
group's size is the sum of its members' weights. -/
theorem weights_updateAt (W : String → Int) (nm : String) (w : Int) (hw : w = W nm) :
    ∀ (gs : List Group) (i : Nat),
      (∀ g ∈ gs, g.Size = (g.Files.map W).sum) →
      ∀ g ∈ updateAt i (fun g => g.add nm w) gs, g.Size = (g.Files.map W).sum := by
  intro gs
  induction gs with
  | nil =>
    intro i _ g hg
    simp [updateAt] at hg
  | cons g0 rest ih =>
    intro i hinv g hg
    cases i with
    | zero =>
      simp only [updateAt] at hg
      rcases List.mem_cons.mp hg with hg | hg
      · subst hg
        show (g0.add nm w).Size = ((g0.add nm w).Files.map W).sum
        unfold Group.add
        simp only
        rw [List.map_append, List.sum_append, hinv g0 (List.mem_cons_self g0 rest), hw]
        simp
      · exact hinv g (List.mem_cons_of_mem g0 hg)
    | succ n =>
      simp only [updateAt] at hg
      rcases List.mem_cons.mp hg with hg | hg
      · subst hg
        exact hinv g (List.mem_cons_self g rest)
      · exact ih n (fun g2 hg2 => hinv g2 (List.mem_cons_of_mem g0 hg2)) g hg

/-- Go map lookup finds exactly the entry a duplicate-free association
list holds. -/
theorem lookupName_eq_some_of_mem (l : List (String × FileInfo)) (e : String × FileInfo)
    (h : e ∈ l) (hnd : (l.map Prod.fst).Nodup) : lookupName e.1 l = some e.2 := by
  induction l with
  | nil => simp at h
  | cons x rest ih =>
    simp only [List.map_cons, List.nodup_cons] at hnd
    rcases List.mem_cons.mp h with he | he
    · subst he
      simp [lookupName]
    · have hx : x.1 ≠ e.1 := by
        intro hc
        apply hnd.1
        rw [hc]
        exact List.mem_map_of_mem Prod.fst he
      unfold lookupName
      rw [if_neg hx]
      exact ih he hnd.2

/-- The distribution loop, from any non-empty group slice: it keeps
the number of groups, appends exactly the processed names to the
combined file list, and keeps every group's size equal to the sum of
its members' weights. -/
theorem distribute_spec (previous : Option (List (String × FileInfo))) (W : String → Int) :
    ∀ (entries : List (String × FileInfo)) (gs : List Group),
      gs ≠ [] →
      (∀ e ∈ entries, W e.1 = effectiveSize previous e.1 e.2) →
      (∀ g ∈ gs, g.Size = (g.Files.map W).sum) →
      (distribute previous gs entries).length = gs.length ∧
      (joinFiles (distribute previous gs entries)).Perm
        (joinFiles gs ++ entries.map Prod.fst) ∧
      ∀ g ∈ distribute previous gs entries, g.Size = (g.Files.map W).sum := by
  intro entries
  induction entries with
  | nil =>
    intro gs _ _ hinv
    exact ⟨rfl, by simp [distribute, joinFiles], hinv⟩
  | cons e rest ih =>
    intro gs hne hW hinv
    have hstep : distribute previous gs (e :: rest) =
        distribute previous (assign previous gs e) rest := rfl
    have hlen : (assign previous gs e).length = gs.length := updateAt_length _ _ gs
    have hne2 : assign previous gs e ≠ [] := by
      intro hc
      apply hne
      have h0 := congrArg List.length hc
      rw [hlen] at h0
      exact List.length_eq_zero.mp h0
    have hWrest : ∀ x ∈ rest, W x.1 = effectiveSize previous x.1 x.2 :=
      fun x hx => hW x (List.mem_cons_of_mem e hx)
    have hinv2 : ∀ g ∈ assign previous gs e, g.Size = (g.Files.map W).sum := by
      unfold assign
      exact weights_updateAt W e.1 (effectiveSize previous e.1 e.2)
        (by rw [hW e (List.mem_cons_self e rest)]) gs _ hinv
    obtain ⟨ihlen, ihperm, ihinv⟩ := ih (assign previous gs e) hne2 hWrest hinv2
    rw [hstep]
    refine ⟨by rw [ihlen, hlen], ?_, ihinv⟩
    have hjoin : (joinFiles (assign previous gs e)).Perm (e.1 :: joinFiles gs) := by
      unfold assign
      exact joinFiles_updateAt e.1 _ gs (smallestIdx gs) (smallestIdx_lt gs hne)
    refine ihperm.trans ?_
    refine ((hjoin.append_right (rest.map Prod.fst)).trans ?_)
    show ((e.1 :: joinFiles gs) ++ rest.map Prod.fst).Perm
      (joinFiles gs ++ (e :: rest).map Prod.fst)
    simp only [List.cons_append, List.map_cons]
    exact List.perm_middle.symm

/-- The extraction targets of a duplicate-free inventory have
duplicate-free names: non-directory names are a sub-list of the
inventory's names, empty-directory names are duplicate-free directory
names, and the two parts cannot share a name. -/
theorem filesToExtract_keys_nodup (inv : List (String × FileInfo))
    (h : (inv.map Prod.fst).Nodup) : ((filesToExtract inv).map Prod.fst).Nodup := by
  unfold filesToExtract
  rw [List.map_append]
  have h1 : ((filesPart inv).map Prod.fst).Nodup := by
    have hsub : ((filesPart inv).map Prod.fst).Sublist (inv.map Prod.fst) :=
      (List.filter_sublist inv).map Prod.fst
    exact hsub.nodup h
  have h2 : ((emptyDirs ((filesPart inv).map Prod.fst) (dirsPart inv)).map
      (fun d => (d, (⟨0, zeroDateTime⟩ : FileInfo)))).map Prod.fst =
      emptyDirs ((filesPart inv).map Prod.fst) (dirsPart inv) := by
    rw [List.map_map]
    exact List.map_id _
  rw [h2]
  have h3 : (emptyDirs ((filesPart inv).map Prod.fst) (dirsPart inv)).Nodup :=
    (List.nodup_dedup _).filter _
  refine h1.append h3 ?_
  intro a ha hb
  have hfa : isDirName a = false := by
    rw [List.mem_map] at ha
    obtain ⟨e, hem, heq⟩ := ha
    unfold filesPart at hem
    rw [List.mem_filter] at hem
    have hf := hem.2
    rw [← heq]
    simpa using hf
  have hda : isDirName a = true := by
    unfold emptyDirs at hb
    have hmem := List.mem_of_mem_filter hb
    rw [List.mem_dedup] at hmem
    unfold dirsPart at hmem
    exact (List.mem_filter.mp hmem).2
  rw [hfa] at hda
  cases hda

/-- Dropping the empty groups does not change the combined file
list. -/
theorem joinFiles_filter_nonempty (gs : List Group) :
    ((gs.filter fun g => decide (0 < g.Files.length)).map Group.Files).flatten =
      joinFiles gs := by
  induction gs with
  | nil => rfl
  | cons g rest ih =>
    have hcons : joinFiles (g :: rest) = g.Files ++ joinFiles rest := rfl
    rw [hcons, List.filter_cons]
    by_cases hg : 0 < g.Files.length
    · rw [if_pos (decide_eq_true hg)]
      simp only [List.map_cons, List.flatten_cons]
      rw [ih]
    · rw [if_neg (by simpa using hg)]
      rw [ih]
      have hnil : g.Files = [] := by
        cases hf : g.Files with
        | nil => rfl
        | cons x xs => exact absurd (by rw [hf]; simp) hg
      rw [hnil]
      rfl

/-- The distribution loop's group slice, fully characterised:
group count `K`, files a permutation of the target names, and sizes
the sums of the members' effective weights. -/
theorem fileGroupsG_spec (inv : List (String × FileInfo))
    (previous : Option (List (String × FileInfo))) (K : Nat)
    (hK : 1 ≤ K) (hnd : (inv.map Prod.fst).Nodup) :
    (fileGroupsG inv previous K).length = K ∧
    (joinFiles (fileGroupsG inv previous K)).Perm ((filesToExtract inv).map Prod.fst) ∧
    ∀ g ∈ fileGroupsG inv previous K,
      g.Size = (g.Files.map (memberW (filesToExtract inv) previous)).sum := by
  have htnd := filesToExtract_keys_nodup inv hnd
  have hWs : ∀ e ∈ sortBySizeDesc (filesToExtract inv),
      memberW (filesToExtract inv) previous e.1 = effectiveSize previous e.1 e.2 := by
    intro e he
    have hmem : e ∈ filesToExtract inv :=
      (List.perm_insertionSort bySizeDesc (filesToExtract inv)).mem_iff.mp he
    unfold memberW
    rw [lookupName_eq_some_of_mem _ e hmem htnd]
  have hgs0ne : (List.replicate K (⟨[], 0⟩ : Group)) ≠ [] := by
    intro hc
    have h0 := congrArg List.length hc
    simp at h0
    omega
  have hinv0 : ∀ g ∈ List.replicate K (⟨[], 0⟩ : Group),
      g.Size = (g.Files.map (memberW (filesToExtract inv) previous)).sum := by
    intro g hg
    rw [List.eq_of_mem_replicate hg]
    rfl
  obtain ⟨hlen, hperm, hw⟩ := distribute_spec previous (memberW (filesToExtract inv) previous)
    (sortBySizeDesc (filesToExtract inv)) _ hgs0ne hWs hinv0
  have hj0 : joinFiles (List.replicate K (⟨[], 0⟩ : Group)) = [] := by
    unfold joinFiles
    rw [List.map_replicate]
    induction K with
    | zero => rfl
    | succ n ihn => simp [ihn]
  refine ⟨by rw [show fileGroupsG inv previous K =
      distribute previous (List.replicate K ⟨[], 0⟩) (sortBySizeDesc (filesToExtract inv))
      from rfl, hlen, List.length_replicate], ?_, hw⟩
  refine hperm.trans ?_
  rw [hj0]
  simp only [List.nil_append]
  exact (List.perm_insertionSort bySizeDesc (filesToExtract inv)).map Prod.fst

/-- Claim C1: for every duplicate-free inventory and worker count
K ≥ 1, the groups returned by `FileGroups` cover the extraction target
set (non-directory entries plus reconciled empty directories) exactly
once each with no duplicates, every group's accumulated weight is the
sum of its members' effective sizes, at most K groups are returned,
and every returned group is non-empty. -/
theorem claim_C1 (inv : List (String × FileInfo))
    (previous : Option (List (String × FileInfo))) (K : Nat)
    (hK : 1 ≤ K) (hnd : (inv.map Prod.fst).Nodup) :
    ((FileGroups inv previous K).flatten).Perm ((filesToExtract inv).map Prod.fst) ∧
    ((filesToExtract inv).map Prod.fst).Nodup ∧
    ((FileGroups inv previous K).flatten).Nodup ∧
    (∀ g ∈ fileGroupsG inv previous K,
      g.Size = (g.Files.map (memberW (filesToExtract inv) previous)).sum) ∧
    (FileGroups inv previous K).length ≤ K ∧
    ∀ fs ∈ FileGroups inv previous K, fs ≠ [] := by
  obtain ⟨hlen, hperm, hw⟩ := fileGroupsG_spec inv previous K hK hnd
  have htnd := filesToExtract_keys_nodup inv hnd
  have hfg : (FileGroups inv previous K).flatten = joinFiles (fileGroupsG inv previous K) := by
    unfold FileGroups
    exact joinFiles_filter_nonempty _
  have hperm2 : ((FileGroups inv previous K).flatten).Perm
      ((filesToExtract inv).map Prod.fst) := by
    rw [hfg]
    exact hperm
  refine ⟨hperm2, htnd, hperm2.nodup_iff.mpr htnd, hw, ?_, ?_⟩
  · unfold FileGroups
    rw [List.length_map]
    refine le_trans (List.length_filter_le _ _) ?_
    rw [hlen]
  · intro fs hfs
    unfold FileGroups at hfs
    rw [List.mem_map] at hfs
    obtain ⟨g, hgmem, hgeq⟩ := hfs
    have hpos := (List.mem_filter.mp hgmem).2
    intro hc
    rw [hgeq, hc] at hpos
    simp at hpos

/-- Witness for C1 at a one-file inventory with K = 1. -/
theorem claim_C1_witness :
    ((FileGroups inv1 none 1).flatten).Perm ((filesToExtract inv1).map Prod.fst) :=
  (claim_C1 inv1 none 1 (by decide) (by decide)).1

/-- The group a valid index selects is a member of the slice. -/
theorem getD_mem_of_lt (gs : List Group) :
    ∀ k : Nat, k < gs.length → gs.getD k ⟨[], 0⟩ ∈ gs := by
  induction gs with
  | nil => intro k h; simp at h
  | cons g rest ih =>
    intro k h
    cases k with
    | zero => exact List.mem_cons_self g rest
    | succ n => exact List.mem_cons_of_mem g (ih n (by simpa using h))

/-- Element-wise characterisation of the smallest-group scan, along
the recursion: either nothing beat the running best, or the result is
the first index among the remaining groups whose size is strictly
below the running best and minimal overall. -/
theorem smallestIdxAux_spec :
    ∀ (gs : List Group) (b : Nat) (s : Int) (i : Nat),
      (smallestIdxAux gs b s i = b ∧ ∀ g ∈ gs, s ≤ g.Size) ∨
      (∃ j, j < gs.length ∧ smallestIdxAux gs b s i = i + j ∧
        groupSizeAt gs j < s ∧
        (∀ k, k < gs.length → groupSizeAt gs j ≤ groupSizeAt gs k) ∧
        (∀ k, k < j → groupSizeAt gs j < groupSizeAt gs k)) := by
  intro gs
  induction gs with
  | nil =>
    intro b s i
    left
    exact ⟨rfl, by simp⟩
  | cons g rest ih =>
    intro b s i
    have hz : groupSizeAt (g :: rest) 0 = g.Size := rfl
    have hsucc : ∀ n : Nat, groupSizeAt (g :: rest) (n + 1) = groupSizeAt rest n :=
      fun _ => rfl
    unfold smallestIdxAux
    by_cases hlt : g.Size < s
    · rw [if_pos hlt]
      rcases ih i g.Size (i + 1) with ⟨heq, hall⟩ | ⟨j, hj, heq, hlt2, hmin, hstrict⟩
      · right
        have hallD : ∀ n : Nat, n < rest.length → g.Size ≤ groupSizeAt rest n :=
          fun n hn => hall _ (getD_mem_of_lt rest n hn)
        refine ⟨0, by simp, by rw [heq]; omega, by rw [hz]; exact hlt, ?_, ?_⟩
        · intro k hk
          cases k with
          | zero => exact le_refl _
          | succ n =>
            rw [hz, hsucc n]
            exact hallD n (by simpa using hk)
        · intro k hk
          omega
      · right
        refine ⟨j + 1, by simpa using Nat.succ_lt_succ hj, by rw [heq]; omega, ?_, ?_, ?_⟩
        · rw [hsucc j]
          exact lt_trans hlt2 hlt
        · intro k hk
          cases k with
          | zero =>
            rw [hsucc j, hz]
            exact le_of_lt hlt2
          | succ n =>
            rw [hsucc j, hsucc n]
            exact hmin n (by simpa using hk)
        · intro k hk
          cases k with
          | zero =>
            rw [hsucc j, hz]
            exact hlt2
          | succ n =>
            rw [hsucc j, hsucc n]
            exact hstrict n (by omega)
    · rw [if_neg hlt]
      have hge : s ≤ g.Size := le_of_not_lt hlt
      rcases ih b s (i + 1) with ⟨heq, hall⟩ | ⟨j, hj, heq, hlt2, hmin, hstrict⟩
      · left
        refine ⟨heq, ?_⟩
        intro g2 hg2
        rcases List.mem_cons.mp hg2 with h | h
        · rw [h]
          exact hge
        · exact hall g2 h
      · right
        refine ⟨j + 1, by simpa using Nat.succ_lt_succ hj, by rw [heq]; omega, ?_, ?_, ?_⟩
        · rw [hsucc j]
          exact hlt2
        · intro k hk
          cases k with
          | zero =>
            rw [hsucc j, hz]
            exact le_of_lt (lt_of_lt_of_le hlt2 hge)
          | succ n =>
            rw [hsucc j, hsucc n]
            exact hmin n (by simpa using hk)
        · intro k hk
          cases k with
          | zero =>
            rw [hsucc j, hz]
            exact lt_of_lt_of_le hlt2 hge
          | succ n =>
            rw [hsucc j, hsucc n]
            exact hstrict n (by omega)

/-- The smallest-group scan picks a valid index of minimal size, and
breaks ties by the lowest index: every earlier group is strictly
larger. -/
theorem smallestIdx_spec (gs : List Group) (hne : gs ≠ []) :
    smallestIdx gs < gs.length ∧
    (∀ k, k < gs.length → groupSizeAt gs (smallestIdx gs) ≤ groupSizeAt gs k) ∧
    (∀ k, k < smallestIdx gs → groupSizeAt gs (smallestIdx gs) < groupSizeAt gs k) := by
  cases gs with
  | nil => exact absurd rfl hne
  | cons g rest =>
    have hidx : smallestIdx (g :: rest) = smallestIdxAux rest 0 g.Size 1 := rfl
    have hz : groupSizeAt (g :: rest) 0 = g.Size := rfl
    have hsucc : ∀ n : Nat, groupSizeAt (g :: rest) (n + 1) = groupSizeAt rest n :=
      fun _ => rfl
    rcases smallestIdxAux_spec rest 0 g.Size 1 with ⟨heq, hall⟩ | ⟨j, hj, heq, hlt2, hmin, hstrict⟩
    · have h0 : smallestIdx (g :: rest) = 0 := by rw [hidx, heq]
      rw [h0]
      have hallD : ∀ n : Nat, n < rest.length → g.Size ≤ groupSizeAt rest n :=
        fun n hn => hall _ (getD_mem_of_lt rest n hn)
      refine ⟨by simp, ?_, ?_⟩
      · intro k hk
        cases k with
        | zero => exact le_refl _
        | succ n =>
          rw [hz, hsucc n]
          exact hallD n (by simpa using hk)
      · intro k hk
        omega
    · have h1 : smallestIdx (g :: rest) = j + 1 := by rw [hidx, heq]; omega
      rw [h1]
      refine ⟨by simpa using Nat.succ_lt_succ hj, ?_, ?_⟩
      · intro k hk
        cases k with
        | zero =>
          rw [hsucc j, hz]
          exact le_of_lt hlt2
        | succ n =>
          rw [hsucc j, hsucc n]
          exact hmin n (by simpa using hk)
      · intro k hk
        cases k with
        | zero =>
          rw [hsucc j, hz]
          exact hlt2
        | succ n =>
          rw [hsucc j, hsucc n]
          exact hstrict n (by omega)

/-- Claim C3: the [100, 10, 10, 10] inventory with K = 2 and no
previous snapshot yields exactly the groups {[100-file]} (weight 100)
and {the three 10-files} (weight 30); targets are processed in
descending size order and each step assigns to the first group of
smallest accumulated weight. -/
theorem claim_C3 :
    FileGroups inv4 none 2 = [["a"], ["b", "c", "d"]] ∧
    fileGroupsG inv4 none 2 = [⟨["a"], 100⟩, ⟨["b", "c", "d"], 30⟩] ∧
    (∀ l : List (String × FileInfo), List.Sorted bySizeDesc (sortBySizeDesc l)) ∧
    (∀ gs : List Group, gs ≠ [] →
      smallestIdx gs < gs.length ∧
      (∀ k, k < gs.length → groupSizeAt gs (smallestIdx gs) ≤ groupSizeAt gs k) ∧
      (∀ k, k < smallestIdx gs → groupSizeAt gs (smallestIdx gs) < groupSizeAt gs k)) := by
  refine ⟨by decide, by decide, ?_, smallestIdx_spec⟩
  intro l
  exact List.sorted_insertionSort bySizeDesc l

/-- Witness for C3 at a concrete two-group slice with a tie broken in
favour of the lower index. -/
theorem claim_C3_witness :
    groupSizeAt [⟨["x"], 5⟩, ⟨[], 3⟩] (smallestIdx [⟨["x"], 5⟩, ⟨[], 3⟩]) ≤
      groupSizeAt [⟨["x"], 5⟩, ⟨[], 3⟩] 0 :=
  (claim_C3.2.2.2 [⟨["x"], 5⟩, ⟨[], 3⟩] (by decide)).2.1 0 (by decide)

/-- Claim C4: a target's effective weight is its size except that an
identical-name, identical-size, identical-date entry of the previous
snapshot makes it 0; a zero-weight member adds nothing to its group's
accumulated weight; and in the concrete previous-snapshot instance the
discounted 100-byte file joins whichever group is smallest at its
step instead of occupying a dedicated group. -/
theorem claim_C4 :
    (∀ (prev : List (String × FileInfo)) (name : String) (info p : FileInfo),
      lookupName name prev = some p → p.Size = info.Size → p.Date = info.Date →
      effectiveSize (some prev) name info = 0) ∧
    (∀ (prev : List (String × FileInfo)) (name : String) (info : FileInfo),
      (∀ p, lookupName name prev = some p → ¬(p.Size = info.Size ∧ p.Date = info.Date)) →
      effectiveSize (some prev) name info = info.Size) ∧
    (∀ (name : String) (info : FileInfo), effectiveSize none name info = info.Size) ∧
    (∀ (inv : List (String × FileInfo)) (previous : Option (List (String × FileInfo)))
      (K : Nat), 1 ≤ K → (inv.map Prod.fst).Nodup →
      ∀ g ∈ fileGroupsG inv previous K, ∀ n ∈ g.Files,
        memberW (filesToExtract inv) previous n = 0 →
        g.Size = ((g.Files.erase n).map (memberW (filesToExtract inv) previous)).sum) ∧
    (fileGroupsG inv4 (some prevD) 2 = [⟨["a", "b", "d"], 20⟩, ⟨["c"], 10⟩] ∧
      effectiveSize (some prevD) "a" ⟨100, dt0⟩ = 0 ∧
      memberW (filesToExtract inv4) (some prevD) "a" = 0) := by
  refine ⟨?_, ?_, ?_, ?_, by decide, by decide, by decide⟩
  · intro prev name info p hl hs hd
    simp only [effectiveSize, hl]
    rw [if_pos ⟨hs, hd⟩]
  · intro prev name info hnp
    simp only [effectiveSize]
    cases hl : lookupName name prev with
    | none => rfl
    | some p =>
      show (if p.Size = info.Size ∧ p.Date = info.Date then (0 : Int) else info.Size) = info.Size
      rw [if_neg (hnp p hl)]
  · intro name info
    rfl
  · intro inv previous K hK hnd g hg n hn hW0
    have hw := (fileGroupsG_spec inv previous K hK hnd).2.2 g hg
    have hperm : g.Files.Perm (n :: g.Files.erase n) := List.perm_cons_erase hn
    rw [hw, (hperm.map (memberW (filesToExtract inv) previous)).sum_eq]
    simp [hW0]

/-- Witness for C4 at the concrete discounted entry. -/
theorem claim_C4_witness : effectiveSize (some prevD) "a" ⟨100, dt0⟩ = 0 :=
  claim_C4.1 prevD "a" ⟨100, dt0⟩ ⟨100, dt0⟩ (by decide) rfl rfl

end Gosnapper
